import Mathlib

/-!
Verification of the spell-checker program (src/main.rs) against its
natural-language specification.

Modelling conventions:
* Rust `String` / `&str` values are modelled as `List Char` (Unicode scalar
  values, exactly the values produced by Rust `str::chars`).
* Byte-based operations (`str::len`, byte-range slicing `s[a..b]`) are modelled
  through the UTF-8 byte length `Char.utf8Size` of each character.
* A Rust panic (out-of-range or non-character-boundary slice) is modelled by
  the `none` value of an `Option` result.
* Fallible functions returning Rust `Result<T, String>` are modelled with
  `Except E T` where `E` is an inductive type carrying exactly the data that
  the source interpolates into its error message strings.
-/

namespace SpellCheck

/-- The value `usize::MAX` used by the source as the initial minimum distance
(64-bit target). -/
def usizeMax : Nat := 2 ^ 64 - 1

/-- Abbreviation turning a string literal into the character list that models
it. -/
def chars (s : String) : List Char := s.data

/-- Model of Rust `char::is_whitespace`: the Unicode White_Space property. -/
def isRustWhitespace (c : Char) : Bool :=
  c = '\t' || c = '\n' || c = '\x0B' || c = '\x0C' || c = '\r' || c = ' ' ||
  c = '\u0085' || c = ' ' || c = ' ' ||
  (' ' ≤ c && c ≤ ' ') ||
  c = ' ' || c = ' ' || c = ' ' || c = ' ' || c = '　'

/-- Model of Rust `str::trim`: remove leading and trailing whitespace. -/
def trim (l : List Char) : List Char :=
  ((l.dropWhile isRustWhitespace).reverse.dropWhile isRustWhitespace).reverse

/-- Model of Rust `str::split_inclusive` on the newline character: each chunk
keeps its terminating newline, and there is no empty final chunk. -/
def splitInclusiveNewline : List Char → List (List Char)
  | [] => []
  | c :: cs =>
    if c = '\n' then [c] :: splitInclusiveNewline cs
    else
      match splitInclusiveNewline cs with
      | [] => [[c]]
      | l :: ls => (c :: l) :: ls

/-- Strip one trailing line ending, either a bare newline or a carriage return
followed by a newline (the per-chunk map performed by Rust `str::lines`). -/
def stripLineEnding (l : List Char) : List Char :=
  match l.reverse with
  | '\n' :: '\r' :: rest => rest.reverse
  | '\n' :: rest => rest.reverse
  | _ => l

/-- Model of Rust `str::lines`. -/
def rustLines (cs : List Char) : List (List Char) :=
  (splitInclusiveNewline cs).map stripLineEnding

/-- UTF-8 byte length of a character list, i.e. Rust `str::len`. -/
def utf8Len (cs : List Char) : Nat := (cs.map Char.utf8Size).sum

/-- Model of a Rust byte-range split of a string after exactly `n` UTF-8
bytes.  Returns `none` exactly when byte position `n` is out of range or not a
character boundary, the situations in which Rust string slicing panics. -/
def splitAtByte : List Char → Nat → Option (List Char × List Char)
  | cs, 0 => some ([], cs)
  | [], _ + 1 => none
  | c :: cs, n + 1 =>
    if c.utf8Size ≤ n + 1 then
      (splitAtByte cs (n + 1 - c.utf8Size)).map fun p => (c :: p.1, p.2)
    else none

/-- The `Token` enum of the source: a word or a single separator character. -/
inductive Token where
  | word (text : List Char)
  | separator (ch : Char)
deriving DecidableEq

/-- The `WordList` struct of the source: a four-digit id and a token list. -/
structure WordList where
  id : List Char
  tokens : List Token
deriving DecidableEq

/-- Is this token a `Word` token?  (`matches!(token, Token::Word(_))`.) -/
def Token.isWord : Token → Bool
  | Token.word _ => true
  | Token.separator _ => false

/-- The text rendered for one token by the `Display` impl for `Token`:
a word prints its text, a separator prints its character. -/
def tokenText : Token → List Char
  | Token.word w => w
  | Token.separator c => [c]

/-- Concatenation of the rendered tokens, as produced by the `Display` impl
for `WordList` after the id and the following space. -/
def render (tokens : List Token) : List Char :=
  (tokens.map tokenText).flatten

/-- Per-line parse errors of `WordList::parse_line`.  The source renders them
as formatted strings; each constructor carries exactly the data interpolated
into the corresponding message. -/
inductive ParseError where
  | tooShort (lineNumber : Nat) (line : List Char)
  | invalidId (lineNumber : Nat) (id : List Char)
  | noValidWords (lineNumber : Nat) (line : List Char)
deriving DecidableEq

/-- Errors of `WordList::parse_content`: a propagated per-line error, or the
`cannot find any valid entries` failure. -/
inductive ContentError where
  | lineError (e : ParseError)
  | noValidEntries
deriving DecidableEq

/-- The accumulator loop of `WordList::parse_tokens`: `cur` is the pending
`current_word` buffer.  On a space or slash the non-empty buffer is flushed as
a `Word` token and the separator itself is emitted; any other character is
appended to the buffer; at the end a non-empty buffer is flushed. -/
def parseTokensAux : List Char → List Char → List Token
  | [], cur => if cur.isEmpty then [] else [Token.word cur]
  | c :: cs, cur =>
    if c = ' ' || c = '/' then
      (if cur.isEmpty then [] else [Token.word cur]) ++
        (Token.separator c :: parseTokensAux cs [])
    else parseTokensAux cs (cur ++ [c])

/-- Model of `WordList::parse_tokens`. -/
def parse_tokens (wordsPart : List Char) : List Token :=
  parseTokensAux wordsPart []

/-- Model of `WordList::parse_line`.  The outer `Option` is `none` exactly
when the source would panic (byte slicing off a character boundary); otherwise
the checks run in source order: byte-length check, slice of bytes `0..4`,
ASCII-digit check on the id, slice of bytes `5..`, tokenization, and the
at-least-one-word check. -/
def parse_line (lineNumber : Nat) (line : List Char) :
    Option (Except ParseError WordList) :=
  if utf8Len line < 5 then
    some (Except.error (ParseError.tooShort lineNumber line))
  else
    match splitAtByte line 4 with
    | none => none
    | some (id, _) =>
      if !(id.all Char.isDigit) then
        some (Except.error (ParseError.invalidId lineNumber id))
      else
        match splitAtByte line 5 with
        | none => none
        | some (_, wordsPart) =>
          let tokens := parse_tokens wordsPart
          if !(tokens.any Token.isWord) then
            some (Except.error (ParseError.noValidWords lineNumber line))
          else
            some (Except.ok ⟨id, tokens⟩)

/-- The numbered, trimmed, non-blank lines that `WordList::parse_content`
feeds to `parse_line`: lines are enumerated with 1-based numbers before blank
lines are discarded, so numbers refer to original positions. -/
def survivingLines (content : List Char) : List (Nat × List Char) :=
  ((rustLines content).enum.map (fun p => (p.1 + 1, trim p.2))).filter
    (fun p => !p.2.isEmpty)

/-- Sequential parsing of the surviving lines, with short-circuiting on the
first error (the `collect::<Result<...>>` of the source) and propagation of a
panic (`none`). -/
def parseLines : List (Nat × List Char) → Option (Except ParseError (List WordList))
  | [] => some (Except.ok [])
  | p :: rest =>
    match parse_line p.1 p.2 with
    | none => none
    | some (Except.error e) => some (Except.error e)
    | some (Except.ok entry) =>
      match parseLines rest with
      | none => none
      | some (Except.error e) => some (Except.error e)
      | some (Except.ok entries) => some (Except.ok (entry :: entries))

/-- Model of `WordList::parse_content` (the `and_then` empty check included). -/
def parse_content (content : List Char) : Option (Except ContentError (List WordList)) :=
  match parseLines (survivingLines content) with
  | none => none
  | some (Except.error e) => some (Except.error (ContentError.lineError e))
  | some (Except.ok entries) =>
    if entries.isEmpty then some (Except.error ContentError.noValidEntries)
    else some (Except.ok entries)

/-- Lexicographic order on character lists by Unicode scalar value.  This is
exactly the ordering of Rust `String` `Ord` (bytewise comparison of the UTF-8
encodings), because UTF-8 encoding preserves the scalar-value order. -/
def lexLe : List Char → List Char → Bool
  | [], _ => true
  | _ :: _, [] => false
  | a :: as, b :: bs =>
    if a.val.toNat < b.val.toNat then true
    else if b.val.toNat < a.val.toNat then false
    else lexLe as bs

/-- Insertion of a word into a sorted word list, keeping `lexLe` order. -/
def insertSorted (a : List Char) : List (List Char) → List (List Char)
  | [] => [a]
  | b :: bs => if lexLe a b then a :: b :: bs else b :: insertSorted a bs

/-- Model of `Vec::sort_unstable` on the dictionary, via its contract: it
reorders the vector into ascending `Ord` order.  Since `lexLe` is a total
order (antisymmetric, transitive, total), the sorted permutation of a list is
unique, so this insertion sort produces exactly the list that the source
`sort_unstable` produces. -/
def sortWords (l : List (List Char)) : List (List Char) :=
  l.foldr insertSorted []

/-- Construction error of `SpellChecker::new` (the source renders it as the
string `Dictionary is empty`). -/
inductive DictError where
  | emptyDictionary
deriving DecidableEq

/-- The trimmed non-blank lines of the dictionary file, in file order, before
sorting (the `collect` of `SpellChecker::new`). -/
def vocabularyLines (dictContent : List Char) : List (List Char) :=
  ((rustLines dictContent).map trim).filter (fun l => !l.isEmpty)

/-- Model of `SpellChecker::new` on the raw dictionary text (file reading
excluded): collect the trimmed non-blank lines, fail when there are none,
otherwise sort. -/
def spellchecker_new (dictContent : List Char) : Except DictError (List (List Char)) :=
  if (vocabularyLines dictContent).isEmpty then Except.error DictError.emptyDictionary
  else Except.ok (sortWords (vocabularyLines dictContent))

/-- Model of `SpellChecker::contains_word`, which calls slice `binary_search`
on the sorted dictionary.  We model `binary_search(..).is_ok()` through its
documented contract: on a sorted slice it returns `Ok` exactly when the value
is present. -/
def contains_word (dictionary : List (List Char)) (word : List Char) : Bool :=
  dictionary.contains word

/-- Inner loop of the Levenshtein recurrence, structurally recursive on the
second string; `row` is the distance function of the tail of the first
string, and `asLen` its length. -/
def levAux (a : Char) (row : List Char → Nat) (asLen : Nat) : List Char → Nat
  | [] => asLen + 1
  | b :: bs =>
    if a = b then row bs
    else 1 + min (row bs) (min (levAux a row asLen bs) (row (b :: bs)))

/-- Model of `strsim::levenshtein` (external crate): the minimum number of
single-character insertions, deletions and substitutions transforming one
string into the other, by the textbook recurrence (see
`levenshtein_cons_cons`).  The two-level structural recursion keeps the
definition kernel-reducible. -/
def levenshtein : List Char → List Char → Nat
  | [], bs => bs.length
  | a :: as, bs => levAux a (levenshtein as) as.length bs

/-- The scanning loop of `SpellChecker::correct_word`: running best match and
minimum distance, strict-improvement update, and early exit (`break`) as soon
as an updated distance is at most 1. -/
def correctLoop (word : List Char) :
    List (List Char) → List Char → Nat → List Char
  | [], bestMatch, _ => bestMatch
  | c :: rest, bestMatch, minDistance =>
    let d := levenshtein word c
    if d < minDistance then
      if d ≤ 1 then c else correctLoop word rest c d
    else correctLoop word rest bestMatch minDistance

/-- Model of `SpellChecker::correct_word`: pass through a word contained in
the dictionary, otherwise scan the dictionary in order starting from
`best_match = word` and `min_distance = usize::MAX`. -/
def correct_word (dictionary : List (List Char)) (word : List Char) : List Char :=
  if contains_word dictionary word then word
  else correctLoop word dictionary word usizeMax

/-- Correction of a single token, as in the `map` of
`SpellChecker::correct_word_list`. -/
def correctToken (dictionary : List (List Char)) : Token → Token
  | Token.word w => Token.word (correct_word dictionary w)
  | Token.separator c => Token.separator c

/-- Model of `SpellChecker::correct_word_list`. -/
def correct_word_list (dictionary : List (List Char)) (wl : WordList) : WordList :=
  ⟨wl.id, wl.tokens.map (correctToken dictionary)⟩

end SpellCheck

namespace SpellCheck

/-! ### Basic facts about the Levenshtein distance -/

theorem levenshtein_nil_left (bs : List Char) : levenshtein [] bs = bs.length := rfl

theorem levenshtein_cons_nil (a : Char) (as : List Char) :
    levenshtein (a :: as) [] = as.length + 1 := rfl

theorem levenshtein_cons_cons (a : Char) (as : List Char) (b : Char) (bs : List Char) :
    levenshtein (a :: as) (b :: bs) =
      if a = b then levenshtein as bs
      else 1 + min (levenshtein as bs)
        (min (levenshtein (a :: as) bs) (levenshtein as (b :: bs))) := rfl

theorem levenshtein_eq_zero : ∀ {a b : List Char}, levenshtein a b = 0 → a = b := by
  intro a
  induction a with
  | nil =>
    intro b h
    rw [levenshtein_nil_left] at h
    exact (List.length_eq_zero.mp h).symm
  | cons x as ih =>
    intro b h
    cases b with
    | nil => rw [levenshtein_cons_nil] at h; omega
    | cons y bs =>
      rw [levenshtein_cons_cons] at h
      by_cases hxy : x = y
      · rw [if_pos hxy] at h
        rw [hxy, ih h]
      · rw [if_neg hxy] at h; omega

theorem levenshtein_le_sum : ∀ (a b : List Char), levenshtein a b ≤ a.length + b.length := by
  intro a
  induction a with
  | nil => intro b; rw [levenshtein_nil_left]; omega
  | cons x as ih =>
    intro b
    induction b with
    | nil => rw [levenshtein_cons_nil]; simp only [List.length_cons, List.length_nil]; omega
    | cons y bs ihb =>
      rw [levenshtein_cons_cons]
      by_cases hxy : x = y
      · rw [if_pos hxy]
        have := ih bs
        simp only [List.length_cons]
        omega
      · rw [if_neg hxy]
        have h1 := ih bs
        have hm : min (levenshtein as bs)
            (min (levenshtein (x :: as) bs) (levenshtein as (y :: bs))) ≤
              levenshtein as bs := Nat.min_le_left _ _
        simp only [List.length_cons]
        omega

theorem one_le_levenshtein_of_ne {w c : List Char} (h : w ≠ c) : 1 ≤ levenshtein w c := by
  rcases Nat.eq_zero_or_pos (levenshtein w c) with h0 | h1
  · exact absurd (levenshtein_eq_zero h0) h
  · exact h1

/-! ### The lexicographic order and sorting -/

theorem lexLe_nil (b : List Char) : lexLe [] b = true := rfl

theorem lexLe_cons (x y : Char) (as bs : List Char) :
    lexLe (x :: as) (y :: bs) = true ↔
      x.val.toNat < y.val.toNat ∨
        (x.val.toNat = y.val.toNat ∧ lexLe as bs = true) := by
  show (if x.val.toNat < y.val.toNat then true
      else if y.val.toNat < x.val.toNat then false else lexLe as bs) = true ↔ _
  by_cases h1 : x.val.toNat < y.val.toNat
  · simp [h1]
  · by_cases h2 : y.val.toNat < x.val.toNat
    · rw [if_neg h1, if_pos h2]
      constructor
      · intro h; cases h
      · rintro (h | ⟨h, _⟩) <;> omega
    · have heq : x.val.toNat = y.val.toNat := by omega
      rw [if_neg h1, if_neg h2]
      constructor
      · intro h; exact Or.inr ⟨heq, h⟩
      · rintro (h | ⟨_, h⟩)
        · omega
        · exact h

theorem lexLe_refl (a : List Char) : lexLe a a = true := by
  induction a with
  | nil => rfl
  | cons x as ih => exact (lexLe_cons x x as as).mpr (Or.inr ⟨rfl, ih⟩)

theorem lexLe_total : ∀ (a b : List Char), lexLe a b = true ∨ lexLe b a = true := by
  intro a
  induction a with
  | nil => intro b; exact Or.inl (lexLe_nil b)
  | cons x as ih =>
    intro b
    cases b with
    | nil => exact Or.inr (lexLe_nil _)
    | cons y bs =>
      rcases Nat.lt_trichotomy x.val.toNat y.val.toNat with h | h | h
      · exact Or.inl ((lexLe_cons x y as bs).mpr (Or.inl h))
      · rcases ih bs with h2 | h2
        · exact Or.inl ((lexLe_cons x y as bs).mpr (Or.inr ⟨h, h2⟩))
        · exact Or.inr ((lexLe_cons y x bs as).mpr (Or.inr ⟨h.symm, h2⟩))
      · exact Or.inr ((lexLe_cons y x bs as).mpr (Or.inl h))

theorem lexLe_trans : ∀ {a b c : List Char},
    lexLe a b = true → lexLe b c = true → lexLe a c = true := by
  intro a
  induction a with
  | nil => intro b c _ _; exact lexLe_nil c
  | cons x as ih =>
    intro b c h1 h2
    cases b with
    | nil => cases h1
    | cons y bs =>
      cases c with
      | nil => cases h2
      | cons z cs =>
        rcases (lexLe_cons x y as bs).mp h1 with hb | ⟨hb, hb2⟩ <;>
          rcases (lexLe_cons y z bs cs).mp h2 with hc | ⟨hc, hc2⟩
        · exact (lexLe_cons x z as cs).mpr (Or.inl (by omega))
        · exact (lexLe_cons x z as cs).mpr (Or.inl (by omega))
        · exact (lexLe_cons x z as cs).mpr (Or.inl (by omega))
        · exact (lexLe_cons x z as cs).mpr (Or.inr ⟨by omega, ih hb2 hc2⟩)

theorem insertSorted_perm (a : List Char) :
    ∀ l : List (List Char), (insertSorted a l).Perm (a :: l) := by
  intro l
  induction l with
  | nil => exact List.Perm.refl _
  | cons b bs ih =>
    show (if lexLe a b then a :: b :: bs else b :: insertSorted a bs).Perm (a :: b :: bs)
    by_cases h : lexLe a b
    · rw [if_pos h]
    · rw [if_neg h]
      exact (ih.cons b).trans (List.Perm.swap a b bs)

theorem mem_insertSorted {x a : List Char} {l : List (List Char)} :
    x ∈ insertSorted a l ↔ x = a ∨ x ∈ l := by
  rw [(insertSorted_perm a l).mem_iff, List.mem_cons]

theorem pairwise_insertSorted (a : List Char) :
    ∀ l : List (List Char), l.Pairwise (fun u v => lexLe u v = true) →
      (insertSorted a l).Pairwise (fun u v => lexLe u v = true) := by
  intro l
  induction l with
  | nil => intro _; exact List.pairwise_singleton _ _
  | cons b bs ih =>
    intro hp
    rcases List.pairwise_cons.mp hp with ⟨hb, hbs⟩
    show (if lexLe a b then a :: b :: bs else b :: insertSorted a bs).Pairwise _
    by_cases h : lexLe a b
    · rw [if_pos h]
      refine List.pairwise_cons.mpr ⟨?_, hp⟩
      intro v hv
      rcases List.mem_cons.mp hv with rfl | hv
      · exact h
      · exact lexLe_trans h (hb v hv)
    · rw [if_neg h]
      refine List.pairwise_cons.mpr ⟨?_, ih hbs⟩
      intro v hv
      rcases mem_insertSorted.mp hv with rfl | hv
      · rcases lexLe_total b v with hx | hx
        · exact hx
        · exact absurd hx h
      · exact hb v hv

theorem sortWords_perm (l : List (List Char)) : (sortWords l).Perm l := by
  induction l with
  | nil => exact List.Perm.refl _
  | cons a as ih =>
    show (insertSorted a (sortWords as)).Perm (a :: as)
    exact (insertSorted_perm a (sortWords as)).trans (ih.cons a)

theorem sortWords_pairwise (l : List (List Char)) :
    (sortWords l).Pairwise (fun u v => lexLe u v = true) := by
  induction l with
  | nil => exact List.Pairwise.nil
  | cons a as ih => exact pairwise_insertSorted a (sortWords as) ih

/-! ### Membership and first-occurrence helpers -/

theorem contains_word_eq_false {dict : List (List Char)} {w : List Char}
    (h : w ∉ dict) : contains_word dict w = false := by
  simp only [contains_word, List.contains, List.elem_eq_mem]
  exact decide_eq_false h

theorem contains_word_eq_true {dict : List (List Char)} {w : List Char}
    (h : w ∈ dict) : contains_word dict w = true := by
  simp only [contains_word, List.contains, List.elem_eq_mem]
  exact decide_eq_true h

theorem exists_first_split {α : Type} (P : α → Prop) [DecidablePred P] :
    ∀ l : List α, (∃ x ∈ l, P x) →
      ∃ pre r post, l = pre ++ r :: post ∧ P r ∧ ∀ c ∈ pre, ¬ P c := by
  intro l
  induction l with
  | nil => rintro ⟨x, hx, _⟩; cases hx
  | cons a l ih =>
    intro h
    by_cases ha : P a
    · exact ⟨[], a, l, rfl, ha, by intro c hc; cases hc⟩
    · have hl : ∃ x ∈ l, P x := by
        rcases h with ⟨x, hx, hPx⟩
        rcases List.mem_cons.mp hx with rfl | hx
        · exact absurd hPx ha
        · exact ⟨x, hx, hPx⟩
      rcases ih hl with ⟨pre, r, post, heq, hr, hpre⟩
      refine ⟨a :: pre, r, post, by rw [heq, List.cons_append], hr, ?_⟩
      intro c hc
      rcases List.mem_cons.mp hc with rfl | hc
      · exact ha
      · exact hpre c hc

theorem exists_min_dist (w : List Char) :
    ∀ l : List (List Char), l ≠ [] →
      ∃ r ∈ l, ∀ c ∈ l, levenshtein w r ≤ levenshtein w c := by
  intro l
  induction l with
  | nil => intro h; exact absurd rfl h
  | cons a l ih =>
    intro _
    cases l with
    | nil =>
      refine ⟨a, by simp, ?_⟩
      intro c hc
      rcases List.mem_cons.mp hc with rfl | hc
      · exact Nat.le_refl _
      · cases hc
    | cons b bs =>
      rcases ih (by simp) with ⟨r, hr, hmin⟩
      by_cases hle : levenshtein w a ≤ levenshtein w r
      · refine ⟨a, by simp, ?_⟩
        intro c hc
        rcases List.mem_cons.mp hc with rfl | hc
        · exact Nat.le_refl _
        · exact Nat.le_trans hle (hmin c hc)
      · refine ⟨r, by simp [hr], ?_⟩
        intro c hc
        rcases List.mem_cons.mp hc with rfl | hc
        · omega
        · exact hmin c hc

end SpellCheck

namespace SpellCheck

/-! ### The scanning loop of correct_word -/

theorem correctLoop_cons (w c : List Char) (rest : List (List Char))
    (best : List Char) (minD : Nat) :
    correctLoop w (c :: rest) best minD =
      if levenshtein w c < minD then
        (if levenshtein w c ≤ 1 then c else correctLoop w rest c (levenshtein w c))
      else correctLoop w rest best minD := rfl

theorem correctLoop_no_improve (w : List Char) :
    ∀ (l : List (List Char)) (best : List Char) (minD : Nat),
      (∀ c ∈ l, ¬ levenshtein w c < minD) → correctLoop w l best minD = best := by
  intro l
  induction l with
  | nil => intro best minD _; rfl
  | cons c rest ih =>
    intro best minD h
    rw [correctLoop_cons, if_neg (h c (by simp))]
    exact ih best minD (fun x hx => h x (by simp [hx]))

theorem correctLoop_early (w r : List Char) :
    ∀ (pre post : List (List Char)) (best : List Char) (minD : Nat),
      2 ≤ minD → (∀ c ∈ pre, 2 ≤ levenshtein w c) → levenshtein w r ≤ 1 →
      correctLoop w (pre ++ r :: post) best minD = r := by
  intro pre
  induction pre with
  | nil =>
    intro post best minD hmin _ hr
    rw [List.nil_append, correctLoop_cons, if_pos (by omega), if_pos hr]
  | cons c pre ih =>
    intro post best minD hmin hpre hr
    have hc : 2 ≤ levenshtein w c := hpre c (by simp)
    rw [List.cons_append, correctLoop_cons]
    by_cases himp : levenshtein w c < minD
    · rw [if_pos himp, if_neg (by omega)]
      exact ih post c (levenshtein w c) hc (fun x hx => hpre x (by simp [hx])) hr
    · rw [if_neg himp]
      exact ih post best minD hmin (fun x hx => hpre x (by simp [hx])) hr

theorem correctLoop_first_min (w r : List Char) :
    ∀ (pre post : List (List Char)) (best : List Char) (minD : Nat),
      (∀ c ∈ pre, 2 ≤ levenshtein w c) →
      (∀ c ∈ pre, levenshtein w r < levenshtein w c) →
      (∀ c ∈ post, levenshtein w r ≤ levenshtein w c) →
      levenshtein w r < minD →
      correctLoop w (pre ++ r :: post) best minD = r := by
  intro pre
  induction pre with
  | nil =>
    intro post best minD _ _ hpost hlt
    rw [List.nil_append, correctLoop_cons, if_pos hlt]
    by_cases hr1 : levenshtein w r ≤ 1
    · rw [if_pos hr1]
    · rw [if_neg hr1]
      exact correctLoop_no_improve w post r (levenshtein w r)
        (fun c hc => by have := hpost c hc; omega)
  | cons c pre ih =>
    intro post best minD hpre2 hpre hpost hlt
    have hc2 : 2 ≤ levenshtein w c := hpre2 c (by simp)
    rw [List.cons_append, correctLoop_cons]
    by_cases himp : levenshtein w c < minD
    · rw [if_pos himp, if_neg (by omega)]
      exact ih post c (levenshtein w c)
        (fun x hx => hpre2 x (by simp [hx]))
        (fun x hx => hpre x (by simp [hx])) hpost (hpre c (by simp))
    · rw [if_neg himp]
      exact ih post best minD
        (fun x hx => hpre2 x (by simp [hx]))
        (fun x hx => hpre x (by simp [hx])) hpost hlt

/-! ### Claim theorems C1 - C4 -/

/-- C1: for a non-empty sorted vocabulary and a word not contained in it, if
some vocabulary entry has Levenshtein distance at most 1 from the word, then
`correct_word` returns the first such entry in scan order (all entries before
it are farther than 1), so in particular the returned word has edit distance
at most 1 from the input. -/
theorem correct_word_early_exit (dict : List (List Char)) (w : List Char)
    (_hs : dict.Pairwise (fun u v => lexLe u v = true))
    (_hne : dict ≠ []) (hnot : w ∉ dict)
    (hex : ∃ c ∈ dict, levenshtein w c ≤ 1) :
    ∃ pre post, dict = pre ++ correct_word dict w :: post ∧
      levenshtein w (correct_word dict w) ≤ 1 ∧
      ∀ c ∈ pre, ¬ levenshtein w c ≤ 1 := by
  rcases exists_first_split (fun c => levenshtein w c ≤ 1) dict hex with
    ⟨pre, r, post, heq, hr, hpre⟩
  have hcw : correct_word dict w = r := by
    unfold correct_word
    rw [contains_word_eq_false hnot]
    simp only [Bool.false_eq_true, if_false]
    rw [heq]
    exact correctLoop_early w r pre post w usizeMax
      (by unfold usizeMax; omega)
      (fun c hc => by have := hpre c hc; omega) hr
  exact ⟨pre, post, by rw [hcw, heq], by rw [hcw]; exact hr, hpre⟩

/-- Closed instance of `correct_word_early_exit` at the vocabulary
`[cat, dog]` and the word `cet`. -/
theorem correct_word_early_exit_witness :
    ∃ pre post,
      [chars "cat", chars "dog"] =
        pre ++ correct_word [chars "cat", chars "dog"] (chars "cet") :: post ∧
      levenshtein (chars "cet")
        (correct_word [chars "cat", chars "dog"] (chars "cet")) ≤ 1 ∧
      ∀ c ∈ pre, ¬ levenshtein (chars "cet") c ≤ 1 :=
  correct_word_early_exit [chars "cat", chars "dog"] (chars "cet")
    (by decide) (by decide) (by decide) (by decide)

/-- C2: for a non-empty vocabulary and a word not contained in it, if no
vocabulary entry is within distance 1, `correct_word` returns a vocabulary
word attaining the minimum edit distance to the input.  The last hypothesis
encodes the Rust domain fact that every computed distance is below
`usize::MAX` (distances are bounded by string lengths, and Rust strings are
shorter than `usize::MAX` bytes). -/
theorem correct_word_min (dict : List (List Char)) (w : List Char)
    (hne : dict ≠ []) (hnot : w ∉ dict)
    (hfar : ∀ c ∈ dict, ¬ levenshtein w c ≤ 1)
    (hsize : ∀ c ∈ dict, levenshtein w c < usizeMax) :
    correct_word dict w ∈ dict ∧
      ∀ c ∈ dict, levenshtein w (correct_word dict w) ≤ levenshtein w c := by
  rcases exists_min_dist w dict hne with ⟨m, hm, hmin⟩
  rcases exists_first_split (fun c => levenshtein w c ≤ levenshtein w m) dict
      ⟨m, hm, Nat.le_refl _⟩ with ⟨pre, r, post, heq, hr, hpre⟩
  have hrd : r ∈ dict := by
    rw [heq]; exact List.mem_append_right _ (List.mem_cons_self _ _)
  have hrm : levenshtein w r = levenshtein w m :=
    Nat.le_antisymm hr (hmin r hrd)
  have hcw : correct_word dict w = r := by
    unfold correct_word
    rw [contains_word_eq_false hnot]
    simp only [Bool.false_eq_true, if_false]
    rw [heq]
    refine correctLoop_first_min w r pre post w usizeMax ?_ ?_ ?_ ?_
    · intro c hc
      have : c ∈ dict := by rw [heq]; exact List.mem_append_left _ hc
      have := hfar c this
      omega
    · intro c hc
      have := hpre c hc
      omega
    · intro c hc
      have : c ∈ dict := by
        rw [heq]; exact List.mem_append_right _ (List.mem_cons_of_mem _ hc)
      rw [hrm]; exact hmin c this
    · exact hsize r hrd
  rw [hcw, hrm]
  exact ⟨hrd, hmin⟩

/-- Closed instance of `correct_word_min` at the vocabulary `[dog, fox]` and
the word `cat`. -/
theorem correct_word_min_witness :
    correct_word [chars "dog", chars "fox"] (chars "cat") ∈
        [chars "dog", chars "fox"] ∧
      ∀ c ∈ [chars "dog", chars "fox"],
        levenshtein (chars "cat")
            (correct_word [chars "dog", chars "fox"] (chars "cat")) ≤
          levenshtein (chars "cat") c :=
  correct_word_min [chars "dog", chars "fox"] (chars "cat")
    (by decide) (by decide) (by decide) (by decide)

/-- C3: for a non-empty sorted vocabulary and a word not contained in it,
`correct_word` returns the earliest entry in scan order attaining the minimum
edit distance (every earlier entry is strictly farther), and hence, by
sortedness, the lexicographically smallest minimizer.  The size hypothesis is
the Rust domain bound as in `correct_word_min`. -/
theorem correct_word_first_minimizer (dict : List (List Char)) (w : List Char)
    (hs : dict.Pairwise (fun u v => lexLe u v = true))
    (hne : dict ≠ []) (hnot : w ∉ dict)
    (hsize : ∀ c ∈ dict, levenshtein w c < usizeMax) :
    ∃ pre post, dict = pre ++ correct_word dict w :: post ∧
      (∀ c ∈ dict, levenshtein w (correct_word dict w) ≤ levenshtein w c) ∧
      (∀ c ∈ pre, levenshtein w (correct_word dict w) < levenshtein w c) ∧
      (∀ c ∈ dict, levenshtein w c = levenshtein w (correct_word dict w) →
        lexLe (correct_word dict w) c = true) := by
  rcases exists_min_dist w dict hne with ⟨m, hm, hmin⟩
  rcases exists_first_split (fun c => levenshtein w c ≤ levenshtein w m) dict
      ⟨m, hm, Nat.le_refl _⟩ with ⟨pre, r, post, heq, hr, hpre⟩
  have hrd : r ∈ dict := by
    rw [heq]; exact List.mem_append_right _ (List.mem_cons_self _ _)
  have hrm : levenshtein w r = levenshtein w m :=
    Nat.le_antisymm hr (hmin r hrd)
  have hr1 : 1 ≤ levenshtein w r :=
    one_le_levenshtein_of_ne (fun hwr => hnot (hwr ▸ hrd))
  have hprelt : ∀ c ∈ pre, levenshtein w r < levenshtein w c := by
    intro c hc
    have hcd : c ∈ dict := by rw [heq]; exact List.mem_append_left _ hc
    have := hpre c hc
    have := hmin c hcd
    omega
  have hcw : correct_word dict w = r := by
    unfold correct_word
    rw [contains_word_eq_false hnot]
    simp only [Bool.false_eq_true, if_false]
    rw [heq]
    by_cases hclose : levenshtein w r ≤ 1
    · exact correctLoop_early w r pre post w usizeMax
        (by unfold usizeMax; omega)
        (fun c hc => by have := hprelt c hc; omega) hclose
    · refine correctLoop_first_min w r pre post w usizeMax ?_ hprelt ?_ ?_
      · intro c hc
        have := hprelt c hc
        omega
      · intro c hc
        have : c ∈ dict := by
          rw [heq]; exact List.mem_append_right _ (List.mem_cons_of_mem _ hc)
        rw [hrm]; exact hmin c this
      · exact hsize r hrd
  rw [heq] at hs
  rcases List.pairwise_append.mp hs with ⟨_, hs2, _⟩
  rcases List.pairwise_cons.mp hs2 with ⟨hrpost, _⟩
  refine ⟨pre, post, by rw [hcw, heq], ?_, ?_, ?_⟩
  · rw [hcw, hrm]; exact hmin
  · rw [hcw]; exact hprelt
  · rw [hcw]
    intro c hcd hceq
    rw [heq] at hcd
    rcases List.mem_append.mp hcd with hc | hc
    · have := hprelt c hc
      omega
    · rcases List.mem_cons.mp hc with rfl | hc
      · exact lexLe_refl _
      · exact hrpost c hc

/-- Closed instance of `correct_word_first_minimizer` at the vocabulary
`[dog, fox]` and the word `cat`. -/
theorem correct_word_first_minimizer_witness :
    ∃ pre post,
      [chars "dog", chars "fox"] =
        pre ++ correct_word [chars "dog", chars "fox"] (chars "cat") :: post ∧
      (∀ c ∈ [chars "dog", chars "fox"],
        levenshtein (chars "cat")
            (correct_word [chars "dog", chars "fox"] (chars "cat")) ≤
          levenshtein (chars "cat") c) ∧
      (∀ c ∈ pre,
        levenshtein (chars "cat")
            (correct_word [chars "dog", chars "fox"] (chars "cat")) <
          levenshtein (chars "cat") c) ∧
      (∀ c ∈ [chars "dog", chars "fox"],
        levenshtein (chars "cat") c =
            levenshtein (chars "cat")
              (correct_word [chars "dog", chars "fox"] (chars "cat")) →
          lexLe (correct_word [chars "dog", chars "fox"] (chars "cat")) c = true) :=
  correct_word_first_minimizer [chars "dog", chars "fox"] (chars "cat")
    (by decide) (by decide) (by decide) (by decide)

/-- C4: a word contained in the (sorted) vocabulary is returned unchanged. -/
theorem correct_word_pass_through (dict : List (List Char)) (w : List Char)
    (_hs : dict.Pairwise (fun u v => lexLe u v = true)) (hmem : w ∈ dict) :
    correct_word dict w = w := by
  unfold correct_word
  rw [contains_word_eq_true hmem]
  simp only [if_true]

/-- Closed instance of `correct_word_pass_through` at the vocabulary `[cat]`
and the word `cat`. -/
theorem correct_word_pass_through_witness :
    correct_word [chars "cat"] (chars "cat") = chars "cat" :=
  correct_word_pass_through [chars "cat"] (chars "cat") (by decide) (by decide)

end SpellCheck

namespace SpellCheck

/-! ### Tokenization round-trip -/

theorem parseTokensAux_nil (cur : List Char) :
    parseTokensAux [] cur = if cur.isEmpty then [] else [Token.word cur] := rfl

theorem parseTokensAux_cons (c : Char) (cs cur : List Char) :
    parseTokensAux (c :: cs) cur =
      if c = ' ' || c = '/' then
        (if cur.isEmpty then [] else [Token.word cur]) ++
          (Token.separator c :: parseTokensAux cs [])
      else parseTokensAux cs (cur ++ [c]) := rfl

theorem render_nil : render [] = [] := rfl

theorem render_cons (t : Token) (ts : List Token) :
    render (t :: ts) = tokenText t ++ render ts := by
  simp [render]

theorem render_append (ts us : List Token) :
    render (ts ++ us) = render ts ++ render us := by
  simp [render]

theorem render_parseTokensAux :
    ∀ cs cur : List Char, render (parseTokensAux cs cur) = cur ++ cs := by
  intro cs
  induction cs with
  | nil =>
    intro cur
    rw [parseTokensAux_nil]
    cases cur with
    | nil => simp [render]
    | cons x xs => simp [render, tokenText]
  | cons c cs ih =>
    intro cur
    rw [parseTokensAux_cons]
    by_cases hsep : (c = ' ' || c = '/') = true
    · rw [if_pos hsep, render_append, render_cons, ih]
      cases cur with
      | nil => simp [render, tokenText]
      | cons x xs => simp [render, tokenText]
    · rw [if_neg hsep, ih]
      simp

/-- C5: concatenating the textual renderings of the tokens produced by
`parse_tokens` reproduces the input string exactly, for every input string
(every string is made of non-separator characters, spaces and slashes). -/
theorem render_parse_tokens (s : List Char) : render (parse_tokens s) = s := by
  show render (parseTokensAux s []) = s
  rw [render_parseTokensAux]
  exact List.nil_append s

/-! ### Too-short check of parse_line -/

theorem parse_line_not_tooShort {line : List Char} (hlen : ¬ utf8Len line < 5)
    (n : Nat) : ∀ k l, parse_line n line ≠ some (Except.error (ParseError.tooShort k l)) := by
  intro k l h
  unfold parse_line at h
  rw [if_neg hlen] at h
  split at h
  · cases h
  · split at h
    · simp at h
    · split at h
      · cases h
      · dsimp only at h
        split at h
        · simp at h
        · simp at h

/-- C6 (amended): `parse_line` fails with a `TooShort` error, naming the
given 1-based line number and the offending line, exactly when the UTF-8 byte
length of the line is less than 5 (characters shorter than 5 but with 5 or
more bytes do not trigger it); the check precedes all other per-line
validation, so a byte length below 5 yields `TooShort` regardless of the line
content. -/
theorem parse_line_tooShort_iff (n : Nat) (line : List Char) :
    (utf8Len line < 5 →
      parse_line n line = some (Except.error (ParseError.tooShort n line))) ∧
    (∀ k l, parse_line n line = some (Except.error (ParseError.tooShort k l)) →
      utf8Len line < 5 ∧ k = n ∧ l = line) := by
  constructor
  · intro h
    unfold parse_line
    rw [if_pos h]
  · intro k l h
    by_cases hlen : utf8Len line < 5
    · unfold parse_line at h
      rw [if_pos hlen] at h
      simp only [Option.some.injEq, Except.error.injEq,
        ParseError.tooShort.injEq] at h
      exact ⟨hlen, h.1.symm, h.2.symm⟩
    · exact absurd h (parse_line_not_tooShort hlen n k l)

/-- Closed instance of `parse_line_tooShort_iff`: the two-character line `12`
is rejected as too short with its line number and text. -/
theorem parse_line_tooShort_iff_witness :
    parse_line 1 (chars "12") =
      some (Except.error (ParseError.tooShort 1 (chars "12"))) :=
  (parse_line_tooShort_iff 1 (chars "12")).1 (by decide)

/-- C6 counterexample: the line ééé has 3 characters, fewer than 5, yet its
UTF-8 byte length is 6, so `parse_line` does not fail with `TooShort`; it
reaches the id check and fails with `InvalidId`.  This refutes the claim that
the `TooShort` error occurs if and only if the line has fewer than 5
characters. -/
theorem parse_line_tooShort_counterexample :
    (chars "ééé").length < 5 ∧
      parse_line 1 (chars "ééé") =
        some (Except.error (ParseError.invalidId 1 (chars "éé"))) :=
  ⟨by decide, rfl⟩

/-! ### Entry-level correction and the panic input -/

/-- C9: `correct_word_list` preserves the id and the token count, copies
every separator token unchanged at its position, and replaces every word
token text by its correction; positions and order are untouched (the
`Forall₂` relates the original token list to the corrected one pointwise, in
order). -/
theorem correct_word_list_spec (dictionary : List (List Char)) (wl : WordList) :
    (correct_word_list dictionary wl).id = wl.id ∧
    (correct_word_list dictionary wl).tokens.length = wl.tokens.length ∧
    List.Forall₂ (fun t u =>
        (∀ c, t = Token.separator c → u = Token.separator c) ∧
        (∀ v, t = Token.word v → u = Token.word (correct_word dictionary v)))
      wl.tokens (correct_word_list dictionary wl).tokens := by
  refine ⟨rfl, by simp [correct_word_list], ?_⟩
  show List.Forall₂ _ wl.tokens (wl.tokens.map (correctToken dictionary))
  induction wl.tokens with
  | nil => exact List.Forall₂.nil
  | cons t ts ih =>
    refine List.Forall₂.cons ⟨?_, ?_⟩ ih
    · intro c hc; rw [hc]; rfl
    · intro v hv; rw [hv]; rfl

/-- Closed instance of `correct_word_list_spec` at a concrete entry with one
word token and one separator token. -/
theorem correct_word_list_spec_witness :
    (correct_word_list [chars "cat"]
        ⟨chars "0001", [Token.word (chars "cet"), Token.separator '/']⟩).id =
      chars "0001" ∧
    (correct_word_list [chars "cat"]
        ⟨chars "0001", [Token.word (chars "cet"), Token.separator '/']⟩).tokens.length =
      2 ∧
    List.Forall₂ (fun t u =>
        (∀ c, t = Token.separator c → u = Token.separator c) ∧
        (∀ v, t = Token.word v → u = Token.word (correct_word [chars "cat"] v)))
      [Token.word (chars "cet"), Token.separator '/']
      (correct_word_list [chars "cat"]
        ⟨chars "0001", [Token.word (chars "cet"), Token.separator '/']⟩).tokens :=
  correct_word_list_spec [chars "cat"]
    ⟨chars "0001", [Token.word (chars "cet"), Token.separator '/']⟩

/-- C10 (refuted; code bug): `parse_line` is not total on valid Unicode
lines.  On the 6-byte line `1234é` the length check passes and the id check
passes, but the slice of bytes `5..` falls inside the two-byte character é,
which makes the source panic; the model returns `none` (panic) rather than an
entry or a parse error. -/
theorem parse_line_panics_on_multibyte :
    parse_line 1 (chars "1234é") = none := rfl

end SpellCheck

namespace SpellCheck

/-! ### parse_content and dictionary construction -/

theorem parseLines_cons (p : Nat × List Char) (rest : List (Nat × List Char)) :
    parseLines (p :: rest) =
      match parse_line p.1 p.2 with
      | none => none
      | some (Except.error e) => some (Except.error e)
      | some (Except.ok entry) =>
        match parseLines rest with
        | none => none
        | some (Except.error e) => some (Except.error e)
        | some (Except.ok entries) => some (Except.ok (entry :: entries)) := rfl

theorem parseLines_all_ok :
    ∀ S : List (Nat × List Char),
      (∀ p ∈ S, ∃ e, parse_line p.1 p.2 = some (Except.ok e)) →
      ∃ entries, parseLines S = some (Except.ok entries) ∧
        List.Forall₂ (fun p e => parse_line p.1 p.2 = some (Except.ok e)) S entries := by
  intro S
  induction S with
  | nil => intro _; exact ⟨[], rfl, List.Forall₂.nil⟩
  | cons p rest ih =>
    intro h
    rcases h p (by simp) with ⟨e, he⟩
    rcases ih (fun q hq => h q (by simp [hq])) with ⟨es, hes, hf⟩
    refine ⟨e :: es, ?_, List.Forall₂.cons he hf⟩
    rw [parseLines_cons, he, hes]

theorem parseLines_first_error :
    ∀ (S1 : List (Nat × List Char)) (p : Nat × List Char)
      (S2 : List (Nat × List Char)) (e : ParseError),
      (∀ q ∈ S1, ∃ en, parse_line q.1 q.2 = some (Except.ok en)) →
      parse_line p.1 p.2 = some (Except.error e) →
      parseLines (S1 ++ p :: S2) = some (Except.error e) := by
  intro S1
  induction S1 with
  | nil =>
    intro p S2 e _ hp
    rw [List.nil_append, parseLines_cons, hp]
  | cons q S1 ih =>
    intro p S2 e hok hp
    rcases hok q (by simp) with ⟨en, hen⟩
    rw [List.cons_append, parseLines_cons, hen,
      ih p S2 e (fun r hr => hok r (by simp [hr])) hp]

/-- C7: `parse_content` works on the trimmed lines that are non-blank after
trimming, numbered 1-based by original line position (blank lines counted);
when every surviving line parses, it returns exactly their entries in input
order, except that an empty entry collection is the no-valid-entries error;
and the error of the first failing surviving line short-circuits the whole
parse, with no partial result. -/
theorem parse_content_spec (content : List Char) :
    (∀ p ∈ survivingLines content, ∃ i part,
        (rustLines content)[i]? = some part ∧
        p.1 = i + 1 ∧ p.2 = trim part ∧ p.2 ≠ []) ∧
    (survivingLines content = [] →
      parse_content content = some (Except.error ContentError.noValidEntries)) ∧
    (survivingLines content ≠ [] →
      (∀ p ∈ survivingLines content, ∃ e, parse_line p.1 p.2 = some (Except.ok e)) →
      ∃ entries, parse_content content = some (Except.ok entries) ∧
        List.Forall₂ (fun p e => parse_line p.1 p.2 = some (Except.ok e))
          (survivingLines content) entries) ∧
    (∀ S1 p S2 e, survivingLines content = S1 ++ p :: S2 →
      (∀ q ∈ S1, ∃ en, parse_line q.1 q.2 = some (Except.ok en)) →
      parse_line p.1 p.2 = some (Except.error e) →
      parse_content content = some (Except.error (ContentError.lineError e))) := by
  refine ⟨?_, ?_, ?_, ?_⟩
  · intro p hp
    unfold survivingLines at hp
    rcases List.mem_filter.mp hp with ⟨hp1, hp2⟩
    rcases List.mem_map.mp hp1 with ⟨q, hq, rfl⟩
    refine ⟨q.1, q.2, List.mem_enum_iff_getElem?.mp hq, rfl, rfl, ?_⟩
    simpa using hp2
  · intro h
    unfold parse_content
    rw [h]
    rfl
  · intro hne hall
    rcases parseLines_all_ok (survivingLines content) hall with ⟨entries, hent, hf⟩
    refine ⟨entries, ?_, hf⟩
    unfold parse_content
    rw [hent]
    have hlen := hf.length_eq
    have hentne : entries ≠ [] := by
      intro h0
      rw [h0] at hlen
      exact hne (List.length_eq_zero.mp hlen)
    show (if entries.isEmpty then some (Except.error ContentError.noValidEntries)
        else some (Except.ok entries)) = some (Except.ok entries)
    rw [if_neg (by simpa [List.isEmpty_iff] using hentne)]
  · intro S1 p S2 e heq hok hp
    unfold parse_content
    rw [heq, parseLines_first_error S1 p S2 e hok hp]

/-- Closed instance of `parse_content_spec`: empty content has no surviving
lines, so parsing fails with the no-valid-entries error. -/
theorem parse_content_spec_witness :
    parse_content [] = some (Except.error ContentError.noValidEntries) :=
  (parse_content_spec []).2.1 rfl

/-- C8 counterexample: the raw dictionary text `a\na` repeats the word `a`;
construction succeeds with the dictionary `[a, a]`, which contains a
duplicate, refuting the claim that the constructed vocabulary is a sequence
of distinct words. -/
theorem spellchecker_new_counterexample :
    spellchecker_new (chars "a\na") = Except.ok [chars "a", chars "a"] ∧
      ¬ ([chars "a", chars "a"] : List (List Char)).Nodup :=
  ⟨rfl, by decide⟩

/-- C8 (amended): construction from raw text fails with the empty-dictionary
error exactly when no line is non-blank after trimming; on success the
dictionary is non-empty, sorted in ascending lexicographic order, and is a
permutation of the trimmed non-blank lines — duplicates included, i.e. the
vocabulary is not deduplicated. -/
theorem spellchecker_new_spec (content : List Char) :
    (spellchecker_new content = Except.error DictError.emptyDictionary ↔
      vocabularyLines content = []) ∧
    ∀ d, spellchecker_new content = Except.ok d →
      d ≠ [] ∧ d.Pairwise (fun u v => lexLe u v = true) ∧
        d.Perm (vocabularyLines content) := by
  constructor
  · constructor
    · intro h
      unfold spellchecker_new at h
      by_cases he : (vocabularyLines content).isEmpty
      · exact List.isEmpty_iff.mp he
      · rw [if_neg he] at h
        cases h
    · intro h
      unfold spellchecker_new
      rw [if_pos (by simp [List.isEmpty_iff, h])]
  · intro d hd
    unfold spellchecker_new at hd
    by_cases he : (vocabularyLines content).isEmpty
    · rw [if_pos he] at hd
      cases hd
    · rw [if_neg he] at hd
      have hd2 : sortWords (vocabularyLines content) = d := by
        injection hd
      rw [← hd2]
      refine ⟨?_, sortWords_pairwise _, sortWords_perm _⟩
      intro h0
      have := (sortWords_perm (vocabularyLines content)).length_eq
      rw [h0] at this
      exact he (by simp [List.isEmpty_iff, List.length_eq_zero.mp this.symm])

/-- Closed instance of `spellchecker_new_spec` at the one-word dictionary
text `a`. -/
theorem spellchecker_new_spec_witness :
    ([chars "a"] : List (List Char)) ≠ [] ∧
      ([chars "a"] : List (List Char)).Pairwise (fun u v => lexLe u v = true) ∧
      ([chars "a"] : List (List Char)).Perm (vocabularyLines (chars "a")) :=
  (spellchecker_new_spec (chars "a")).2 [chars "a"] rfl

end SpellCheck
